import Mathlib

/-!
Verification development for the btc-algo-trader backtester.

Shallow embedding of the core of the repository:
* `src/strategy/base_strategy.py` — `Signal`, `Trade`, `Position`, the
  ledger state held on `BaseStrategy` (`current_balance`, `positions`,
  `trades`), `execute_trade`, `get_portfolio_value`;
* `src/strategy/sma_crossover.py` — `calculate_position_size`;
* `src/backtest/engine.py` — the per-bar simulation loop of
  `run_backtest` (lines 47-79), `total_commission_paid` (line 97),
  `_calculate_max_drawdown`, `_calculate_sharpe_ratio`.

Python float arithmetic is modelled by exact rationals (ℚ); `datetime`
timestamps are modelled by `Nat`; Python dicts keyed by symbol are
modelled by insertion-ordered association lists.  The irrational factor
`sqrt(252)` of the Sharpe ratio lives in ℝ; everything before it is ℚ.
-/

namespace BtcTrader

/-- The `Signal` enum of base_strategy.py (BUY / SELL / HOLD). -/
inductive Signal where
  | buy
  | sell
  | hold
deriving DecidableEq

/-- The string payload of the Python enum member (`signal.value`). -/
def Signal.value : Signal → String
  | .buy => "buy"
  | .sell => "sell"
  | .hold => "hold"

/-- The `Trade` dataclass of base_strategy.py. -/
structure Trade where
  timestamp : Nat
  signal : Signal
  price : ℚ
  quantity : ℚ
  reason : String := ""
deriving DecidableEq

/-- The `Position` dataclass of base_strategy.py. -/
structure Position where
  symbol : String
  quantity : ℚ
  entry_price : ℚ
  entry_time : Nat
  current_price : ℚ := 0
  unrealized_pnl : ℚ := 0
deriving DecidableEq

/-- `Position.update_price`: refresh `current_price` and recompute
`unrealized_pnl = (current_price - entry_price) * quantity`. -/
def Position.update_price (p : Position) (current_price : ℚ) : Position :=
  { p with
      current_price := current_price
      unrealized_pnl := (current_price - p.entry_price) * p.quantity }

/-- The mutable ledger fields of a `BaseStrategy` instance:
cash balance, the symbol-keyed positions dict (as an insertion-ordered
association list) and the trade history. -/
structure LedgerState where
  initial_balance : ℚ
  current_balance : ℚ
  positions : List (String × Position)
  trades : List Trade
deriving DecidableEq

/-- Dict lookup `self.positions[symbol]` / the `symbol in self.positions`
test (`some` iff the key is present). -/
def lookupPos (ps : List (String × Position)) (s : String) : Option Position :=
  (ps.find? (fun q => q.1 == s)).map (fun q => q.2)

/-- Dict assignment `self.positions[symbol] = p`: replace in place when the
key exists (Python dicts keep the key's insertion slot), append otherwise. -/
def setPos (ps : List (String × Position)) (s : String) (p : Position) :
    List (String × Position) :=
  if (ps.find? (fun q => q.1 == s)).isSome then
    ps.map (fun q => if q.1 == s then (s, p) else q)
  else
    ps ++ [(s, p)]

/-- Dict deletion `del self.positions[symbol]`. -/
def delPos (ps : List (String × Position)) (s : String) :
    List (String × Position) :=
  ps.filter (fun q => q.1 != s)

/-- The signature of `calculate_position_size`.  The Python method is an
instance method, so it may also read the instance's ledger state (the SMA
variant reads `self.positions`); the state is passed explicitly here. -/
def Sizing : Type := LedgerState → Signal → ℚ → ℚ → ℚ

/-- `BaseStrategy.execute_trade` (base_strategy.py lines 69-133),
returning the updated ledger state together with the `Trade | None`
result.  Mirrors the source line by line: HOLD is a no-op; a
non-positive computed quantity is a no-op; a BUY debits cash and
creates/averages the position only when affordable but the `Trade` is
appended regardless; a SELL with a position clamps to the held quantity,
credits cash, decrements (deleting at ≤ 0) and overwrites the trade's
quantity, while a SELL without a position mutates nothing; the trade is
appended in every branch that reaches it. -/
def execute_trade (size : Sizing) (st : LedgerState) (signal : Signal)
    (price : ℚ) (timestamp : Nat) (symbol : String) :
    LedgerState × Option Trade :=
  if signal = Signal.hold then (st, none)
  else
    let quantity := size st signal price st.current_balance
    if quantity ≤ 0 then (st, none)
    else
      let trade : Trade :=
        { timestamp := timestamp
          signal := signal
          price := price
          quantity := quantity
          reason := "Signal: " ++ signal.value }
      match signal with
      | Signal.buy =>
          let cost := price * quantity
          if cost ≤ st.current_balance then
            match lookupPos st.positions symbol with
            | some existing =>
                let total_cost := existing.entry_price * existing.quantity + cost
                let total_quantity := existing.quantity + quantity
                let avg_price := total_cost / total_quantity
                let newPos : Position :=
                  { symbol := symbol
                    quantity := total_quantity
                    entry_price := avg_price
                    entry_time := existing.entry_time
                    current_price := price }
                ({ st with
                     current_balance := st.current_balance - cost
                     positions := setPos st.positions symbol newPos
                     trades := st.trades ++ [trade] }, some trade)
            | none =>
                let newPos : Position :=
                  { symbol := symbol
                    quantity := quantity
                    entry_price := price
                    entry_time := timestamp
                    current_price := price }
                ({ st with
                     current_balance := st.current_balance - cost
                     positions := setPos st.positions symbol newPos
                     trades := st.trades ++ [trade] }, some trade)
          else
            ({ st with trades := st.trades ++ [trade] }, some trade)
      | Signal.sell =>
          match lookupPos st.positions symbol with
          | some position =>
              let sell_quantity := min quantity position.quantity
              let revenue := price * sell_quantity
              let remaining := position.quantity - sell_quantity
              let positions' :=
                if remaining ≤ 0 then delPos st.positions symbol
                else setPos st.positions symbol { position with quantity := remaining }
              let trade' := { trade with quantity := sell_quantity }
              ({ st with
                   current_balance := st.current_balance + revenue
                   positions := positions'
                   trades := st.trades ++ [trade'] }, some trade')
          | none =>
              ({ st with trades := st.trades ++ [trade] }, some trade)
      | Signal.hold => (st, none)

/-- Price dict lookup for `get_portfolio_value`. -/
def lookupPrice (prices : List (String × ℚ)) (s : String) : Option ℚ :=
  (prices.find? (fun q => q.1 == s)).map (fun q => q.2)

/-- One iteration of the `for symbol, position in self.positions.items()`
loop of `get_portfolio_value`: when the symbol is priced, refresh the
position via `update_price` and add `quantity * current_price` to the
running value; when it is not priced, the loop body is skipped entirely
(the position contributes nothing and is not refreshed). -/
def portfolioStep (prices : List (String × ℚ))
    (acc : ℚ × List (String × Position)) (q : String × Position) :
    ℚ × List (String × Position) :=
  match lookupPrice prices q.1 with
  | some cp => (acc.1 + q.2.quantity * cp, acc.2 ++ [(q.1, q.2.update_price cp)])
  | none => (acc.1, acc.2 ++ [q])

/-- `BaseStrategy.get_portfolio_value` (base_strategy.py lines 135-143):
returns the computed value together with the mutated ledger (the in-place
`update_price` refreshes). -/
def get_portfolio_value (st : LedgerState) (prices : List (String × ℚ)) :
    ℚ × LedgerState :=
  let r := st.positions.foldl (portfolioStep prices) (st.current_balance, [])
  (r.1, { st with positions := r.2 })

/-- `SMACrossoverStrategy.calculate_position_size`
(sma_crossover.py lines 53-70): BUY sizes to
`position_size_pct * available_balance / current_price`; SELL sizes to
the full quantity held under the hard-coded symbol "BTC/USDT", or 0 when
no such position exists; HOLD sizes to 0. -/
def smaPositionSize (position_size_pct : ℚ) : Sizing :=
  fun st signal current_price available_balance =>
    match signal with
    | Signal.buy => available_balance * position_size_pct / current_price
    | Signal.sell =>
        match lookupPos st.positions "BTC/USDT" with
        | some p => p.quantity
        | none => 0
    | Signal.hold => 0

/-- One input price bar: the loop of `run_backtest` only reads the
timestamp index and the `close` column. -/
structure Bar where
  timestamp : Nat
  close : ℚ
deriving DecidableEq

/-- A strategy as the simulation loop sees it: `generate_signal` over the
visible prefix of bars (engine.py line 56, `current_data = iloc[:i+1]`)
and `calculate_position_size` as passed to `execute_trade`. -/
structure Strategy where
  gen : List Bar → Signal
  size : Sizing

/-- The accumulating state of one `run_backtest` loop: the strategy's
ledger, the two per-bar output lists, and a ghost accumulator recording
the total commission actually debited from cash at engine.py lines 70-71
(it shadows exactly the `self.strategy.current_balance -= commission`
debits and affects nothing else). -/
structure SimState where
  ledger : LedgerState
  signals : List Signal
  portfolio_values : List ℚ
  commission_debited : ℚ
deriving DecidableEq

/-- The body of the `for i, (timestamp, row) in enumerate(...)` loop of
`run_backtest` (engine.py lines 50-78) for one bar: generate the signal
on the visible prefix and record it; when it is not HOLD, execute the
trade and, if a `Trade` was returned, debit
`trade.price * trade.quantity * commission_rate` from cash; then append
the portfolio value priced at this bar's close. -/
def simBar (strat : Strategy) (commission_rate : ℚ) (symbol : String)
    (visible : List Bar) (bar : Bar) (s : SimState) : SimState :=
  let signal := strat.gen visible
  let s1 :=
    if signal = Signal.hold then s
    else
      let r := execute_trade strat.size s.ledger signal bar.close bar.timestamp symbol
      match r.2 with
      | some trade =>
          let commission := trade.price * trade.quantity * commission_rate
          { s with
              ledger :=
                { r.1 with current_balance := r.1.current_balance - commission }
              commission_debited := s.commission_debited + commission }
      | none => { s with ledger := r.1 }
  let v := get_portfolio_value s1.ledger [(symbol, bar.close)]
  { s1 with
      ledger := v.2
      signals := s1.signals ++ [signal]
      portfolio_values := s1.portfolio_values ++ [v.1] }

/-- The full bar-by-bar loop; `seen` is the prefix of bars already
consumed, so the strategy at each step sees `seen ++ [bar]`, matching
`ohlcv_data.iloc[:i+1]`. -/
def runLoop (strat : Strategy) (commission_rate : ℚ) (symbol : String) :
    List Bar → List Bar → SimState → SimState
  | _, [], s => s
  | seen, bar :: rest, s =>
      runLoop strat commission_rate symbol (seen ++ [bar]) rest
        (simBar strat commission_rate symbol (seen ++ [bar]) bar s)

/-- The simulation core of `BacktestEngine.run_backtest`: start from a
fresh ledger with the given initial balance and replay every bar. -/
def run_backtest (strat : Strategy) (commission_rate : ℚ) (symbol : String)
    (initial_balance : ℚ) (bars : List Bar) : SimState :=
  runLoop strat commission_rate symbol [] bars
    { ledger :=
        { initial_balance := initial_balance
          current_balance := initial_balance
          positions := []
          trades := [] }
      signals := []
      portfolio_values := []
      commission_debited := 0 }

/-- The `total_commission_paid` field of the results dict
(engine.py line 97): `len(self.strategy.trades) * self.commission_rate`. -/
def totalCommissionPaid (s : SimState) (commission_rate : ℚ) : ℚ :=
  (s.ledger.trades.length : ℚ) * commission_rate

/-- `mean` of a series (sum divided by length; ℚ division by zero is 0,
matching the fact that the callers below never take a mean of an empty
series on a path whose value is used). -/
def listMean (xs : List ℚ) : ℚ :=
  xs.sum / (xs.length : ℚ)

/-- `expanding().max()` after the first element: running maximum with the
accumulator seeded by the elements seen so far. -/
def rollingMaxAux (m : ℚ) : List ℚ → List ℚ
  | [] => []
  | x :: xs => (max m x) :: rollingMaxAux (max m x) xs

/-- `portfolio_series.expanding().max()` (engine.py line 117):
element-wise running maximum. -/
def rollingMax : List ℚ → List ℚ
  | [] => []
  | x :: xs => x :: rollingMaxAux x xs

/-- `(portfolio_series - rolling_max) / rolling_max` (engine.py line 118). -/
def drawdowns (vs : List ℚ) : List ℚ :=
  List.zipWith (fun v m => (v - m) / m) vs (rollingMax vs)

/-- Minimum of a series, `none` on an empty series (pandas would give NaN
there; `run_backtest` never reaches that case because it rejects empty
data). -/
def listMin : List ℚ → Option ℚ
  | [] => none
  | x :: xs => some (xs.foldl min x)

/-- `BacktestEngine._calculate_max_drawdown` (engine.py lines 116-119):
minimum of the drawdown series. -/
def maxDrawdown (vs : List ℚ) : ℚ :=
  (listMin (drawdowns vs)).getD 0

/-- The running maximum written as the spec writes it: the maximum of
`value[0..t]` (prefix maximum at index `t`). -/
def specRunningMax (vs : List ℚ) (t : Nat) : ℚ :=
  match vs.take (t + 1) with
  | [] => 0
  | x :: xs => xs.foldl max x

/-- Sample variance with the n-1 denominator of `pandas.Series.std()`
(ddof=1); on a series of length ≤ 1 the ℚ division by zero makes it 0. -/
def sampleVar (xs : List ℚ) : ℚ :=
  (xs.map (fun x => (x - listMean xs) ^ 2)).sum / ((xs.length : ℚ) - 1)

/-- `pandas.Series.std()` as a real number: the square root of the
sample variance. -/
noncomputable def sampleStd (xs : List ℚ) : ℝ :=
  Real.sqrt (sampleVar xs)

/-- `BacktestEngine._calculate_sharpe_ratio` (engine.py lines 121-126)
with the default `risk_free_rate = 0.02`: return 0.0 when the series is
empty or its standard deviation is zero (std = 0 iff the sample variance
is 0), otherwise `mean(returns - 0.02/252) / std(returns) * sqrt(252)`. -/
noncomputable def calcSharpe (returns : List ℚ) : ℝ :=
  if returns = [] ∨ sampleVar returns = 0 then 0
  else
    ((listMean (returns.map (fun r => r - (2 / 100) / 252)) : ℚ) : ℝ)
      / sampleStd returns * Real.sqrt 252

/-- Modelled from the claim C6 wording (the definition under test for the
refinement in C6, NOT from the source): cash plus, over every open
position, quantity times the supplied price when the symbol is priced and
quantity times the position's stale `current_price` when it is not. -/
def claimedPortfolioValue (st : LedgerState) (prices : List (String × ℚ)) : ℚ :=
  st.current_balance +
    (st.positions.map (fun q =>
      match lookupPrice prices q.1 with
      | some cp => q.2.quantity * cp
      | none => q.2.quantity * q.2.current_price)).sum

/-! ### Concrete states used in scenarios and witnesses -/

/-- A fresh ledger with balance 10000, as `run_backtest` builds it. -/
def freshLedger : LedgerState :=
  { initial_balance := 10000
    current_balance := 10000
    positions := []
    trades := [] }

/-- The always-buy strategy with sizing fraction 0.1 of the C1 scenario. -/
def c1Strategy : Strategy :=
  { gen := fun _ => Signal.buy
    size := smaPositionSize (1 / 10) }

/-! ### Claim theorems -/

/-- C1: with initial balance 10000, commission rate 0.001 and sizing
fraction 0.1, a single Buy at price 100 sizes to quantity 10;
`execute_trade` debits 1000 leaving cash 9000 and opens a Position with
quantity 10 and entry price 100, returning a Trade of quantity 10; the
simulator then debits commission 100 * 10 * 0.001 = 1 on the filled
quantity, leaving cash exactly 8999. -/
theorem C1_single_buy_scenario :
    smaPositionSize (1 / 10) freshLedger Signal.buy 100 10000 = 10 ∧
    (execute_trade (smaPositionSize (1 / 10)) freshLedger Signal.buy 100 0
        "BTC/USDT").1.current_balance = 9000 ∧
    (execute_trade (smaPositionSize (1 / 10)) freshLedger Signal.buy 100 0
        "BTC/USDT").1.positions =
      [("BTC/USDT",
        { symbol := "BTC/USDT", quantity := 10, entry_price := 100
          entry_time := 0, current_price := 100, unrealized_pnl := 0 })] ∧
    ((execute_trade (smaPositionSize (1 / 10)) freshLedger Signal.buy 100 0
        "BTC/USDT").2.map Trade.quantity) = some 10 ∧
    (run_backtest c1Strategy (1 / 1000) "BTC/USDT" 10000
        [⟨0, 100⟩]).ledger.current_balance = 8999 := by
  refine ⟨?_, ?_, ?_, ?_, ?_⟩ <;>
    simp [run_backtest, runLoop, simBar, c1Strategy, execute_trade,
      smaPositionSize, get_portfolio_value, portfolioStep, lookupPos,
      lookupPrice, setPos, delPos, List.find?, Signal.value, freshLedger] <;>
    norm_num

/-- C2: a Buy whose positive computed quantity costs more than the cash
balance leaves cash and positions untouched, yet still appends the Trade
with the originally computed quantity to the history and returns it. -/
theorem C2_unaffordable_buy (size : Sizing) (st : LedgerState) (price : ℚ)
    (ts : Nat) (symbol : String)
    (hq : 0 < size st Signal.buy price st.current_balance)
    (hcost : st.current_balance <
      price * size st Signal.buy price st.current_balance) :
    (execute_trade size st Signal.buy price ts symbol).1.current_balance =
        st.current_balance ∧
    (execute_trade size st Signal.buy price ts symbol).1.positions =
        st.positions ∧
    (execute_trade size st Signal.buy price ts symbol).1.trades =
        st.trades ++
          [{ timestamp := ts, signal := Signal.buy, price := price
             quantity := size st Signal.buy price st.current_balance
             reason := "Signal: buy" }] ∧
    (execute_trade size st Signal.buy price ts symbol).2 =
        some { timestamp := ts, signal := Signal.buy, price := price
               quantity := size st Signal.buy price st.current_balance
               reason := "Signal: buy" } := by
  simp [execute_trade, Signal.value, not_le.mpr hq, not_le.mpr hcost]

/-- Witness for C2 at a concrete input: a constant sizing of 5 against a
ledger holding 3 in cash, buying at price 1. -/
theorem C2_unaffordable_buy_witness :
    (execute_trade (fun _ _ _ _ => 5)
        { initial_balance := 3, current_balance := 3, positions := []
          trades := [] } Signal.buy 1 0 "BTC/USDT").1.current_balance = 3 := by
  have h := C2_unaffordable_buy (fun _ _ _ _ => 5)
    { initial_balance := 3, current_balance := 3, positions := [], trades := [] }
    1 0 "BTC/USDT" (by norm_num) (by norm_num)
  exact h.1

/-- C10: through the SMA crossover strategy's sizing, a Sell with no open
position under the strategy's symbol "BTC/USDT" sizes to 0, so
`execute_trade` returns `none` and leaves the ledger (history included)
completely unchanged: the ledger's record-a-no-position-Sell branch is
unreachable via this sizing. -/
theorem C10_sma_sell_no_position (pct : ℚ) (st : LedgerState) (price : ℚ)
    (ts : Nat) (h : lookupPos st.positions "BTC/USDT" = none) :
    smaPositionSize pct st Signal.sell price st.current_balance = 0 ∧
    execute_trade (smaPositionSize pct) st Signal.sell price ts "BTC/USDT" =
      (st, none) := by
  constructor
  · simp [smaPositionSize, h]
  · simp [execute_trade, smaPositionSize, h]

/-- Witness for C10 at a concrete input: the fresh ledger holds no
position, so a Sell sized by the SMA strategy is a complete no-op. -/
theorem C10_sma_sell_no_position_witness :
    execute_trade (smaPositionSize (3 / 100)) freshLedger Signal.sell 42 7
      "BTC/USDT" = (freshLedger, none) := by
  exact (C10_sma_sell_no_position (3 / 100) freshLedger 42 7 (by rfl)).2

/-- C3: for a Sell with positive computed quantity: with no Position
under the symbol, the un-clamped Trade is appended and returned while
cash and positions stay unchanged; with a Position, the fill is
min(requested, held), cash is credited by price * fill, the position is
decremented (deleted at ≤ 0), and the appended/returned Trade carries the
fill. -/
theorem C3_sell_branches (size : Sizing) (st : LedgerState) (price : ℚ)
    (ts : Nat) (symbol : String)
    (hq : 0 < size st Signal.sell price st.current_balance) :
    (lookupPos st.positions symbol = none →
      (execute_trade size st Signal.sell price ts symbol).1.current_balance =
          st.current_balance ∧
      (execute_trade size st Signal.sell price ts symbol).1.positions =
          st.positions ∧
      (execute_trade size st Signal.sell price ts symbol).1.trades =
          st.trades ++
            [{ timestamp := ts, signal := Signal.sell, price := price
               quantity := size st Signal.sell price st.current_balance
               reason := "Signal: sell" }] ∧
      (execute_trade size st Signal.sell price ts symbol).2 =
          some { timestamp := ts, signal := Signal.sell, price := price
                 quantity := size st Signal.sell price st.current_balance
                 reason := "Signal: sell" }) ∧
    (∀ p, lookupPos st.positions symbol = some p →
      (execute_trade size st Signal.sell price ts symbol).1.current_balance =
          st.current_balance +
            price * min (size st Signal.sell price st.current_balance) p.quantity ∧
      (execute_trade size st Signal.sell price ts symbol).1.positions =
          (if p.quantity -
                min (size st Signal.sell price st.current_balance) p.quantity ≤ 0
           then delPos st.positions symbol
           else setPos st.positions symbol
             { p with quantity := (p.quantity -
                 min (size st Signal.sell price st.current_balance) p.quantity) }) ∧
      (execute_trade size st Signal.sell price ts symbol).1.trades =
          st.trades ++
            [{ timestamp := ts, signal := Signal.sell, price := price
               quantity := min (size st Signal.sell price st.current_balance) p.quantity
               reason := "Signal: sell" }] ∧
      (execute_trade size st Signal.sell price ts symbol).2 =
          some { timestamp := ts, signal := Signal.sell, price := price
                 quantity := min (size st Signal.sell price st.current_balance) p.quantity
                 reason := "Signal: sell" }) := by
  constructor
  · intro hnone
    simp [execute_trade, Signal.value, not_le.mpr hq, hnone]
  · intro p hsome
    simp [execute_trade, Signal.value, not_le.mpr hq, hsome]

/-- Witness for C3 at concrete inputs: a constant sizing of 4, a Sell at
price 2 against the fresh (position-free) ledger, and against a ledger
holding 3 units: the no-position branch leaves cash at 10000 and the
position branch fills min(4, 3) = 3 crediting 6. -/
theorem C3_sell_branches_witness :
    (execute_trade (fun _ _ _ _ => 4) freshLedger Signal.sell 2 0
        "BTC/USDT").1.current_balance = 10000 ∧
    (execute_trade (fun _ _ _ _ => 4)
        { initial_balance := 10000, current_balance := 10000
          positions := [("BTC/USDT",
            { symbol := "BTC/USDT", quantity := 3, entry_price := 5
              entry_time := 0, current_price := 5, unrealized_pnl := 0 })]
          trades := [] } Signal.sell 2 0 "BTC/USDT").1.current_balance =
      10000 + 2 * min 4 3 := by
  constructor
  · exact ((C3_sell_branches (fun _ _ _ _ => 4) freshLedger 2 0 "BTC/USDT"
      (by norm_num)).1 (by rfl)).1
  · exact ((C3_sell_branches (fun _ _ _ _ => 4)
      { initial_balance := 10000, current_balance := 10000
        positions := [("BTC/USDT",
          { symbol := "BTC/USDT", quantity := 3, entry_price := 5
            entry_time := 0, current_price := 5, unrealized_pnl := 0 })]
        trades := [] } 2 0 "BTC/USDT" (by norm_num)).2
      { symbol := "BTC/USDT", quantity := 3, entry_price := 5
        entry_time := 0, current_price := 5, unrealized_pnl := 0 }
      (by rfl)).1

/-! ### Portfolio valuation (C6) -/

/-- Unrolling the `get_portfolio_value` fold: the accumulated value adds
`quantity * price` for the priced positions only, and exactly the priced
positions get refreshed. -/
theorem portfolioStep_foldl (prices : List (String × ℚ))
    (ps : List (String × Position)) (a : ℚ) (l : List (String × Position)) :
    ps.foldl (portfolioStep prices) (a, l) =
      (a + (ps.map (fun q =>
        match lookupPrice prices q.1 with
        | some cp => q.2.quantity * cp
        | none => 0)).sum,
       l ++ ps.map (fun q =>
        match lookupPrice prices q.1 with
        | some cp => (q.1, q.2.update_price cp)
        | none => q)) := by
  induction ps generalizing a l with
  | nil => simp
  | cons p ps ih =>
      cases h : lookupPrice prices p.1 with
      | none => simp [portfolioStep, h, ih, add_assoc]
      | some cp => simp [portfolioStep, h, ih, add_assoc]

/-- A ledger with cash 100 and one open position of 5 units whose stale
`current_price` is 50, used to separate the code's valuation from the
claimed one. -/
def c6Ledger : LedgerState :=
  { initial_balance := 100
    current_balance := 100
    positions := [("X",
      { symbol := "X", quantity := 5, entry_price := 10, entry_time := 0
        current_price := 50, unrealized_pnl := 0 })]
    trades := [] }

/-- C6 counterexample: with one open position that is absent from the
supplied price map, the code values the portfolio at bare cash (100),
not at cash plus quantity times the stale current price (350) as the
claim states. -/
theorem C6_counterexample :
    (get_portfolio_value c6Ledger [("Y", 7)]).1 ≠
      claimedPortfolioValue c6Ledger [("Y", 7)] := by
  simp [get_portfolio_value, portfolioStep, claimedPortfolioValue, c6Ledger,
    lookupPrice, List.find?]

/-- C6 (amended): `get_portfolio_value` returns cash plus, over open
positions whose symbol is in the supplied price map, quantity times the
supplied price — positions without a supplied price contribute nothing —
and as a side effect refreshes `current_price`/`unrealized_pnl` of
exactly the priced positions, leaving unpriced ones (and cash and the
trade history) untouched. -/
theorem C6_portfolio_value_amended (st : LedgerState)
    (prices : List (String × ℚ)) :
    (get_portfolio_value st prices).1 =
      st.current_balance +
        (st.positions.map (fun q =>
          match lookupPrice prices q.1 with
          | some cp => q.2.quantity * cp
          | none => 0)).sum ∧
    (get_portfolio_value st prices).2.positions =
      st.positions.map (fun q =>
        match lookupPrice prices q.1 with
        | some cp => (q.1, q.2.update_price cp)
        | none => q) ∧
    (get_portfolio_value st prices).2.current_balance = st.current_balance ∧
    (get_portfolio_value st prices).2.trades = st.trades := by
  refine ⟨?_, ?_, ?_, ?_⟩ <;>
    simp [get_portfolio_value, portfolioStep_foldl]

/-! ### Max drawdown (C7) -/

/-- The seeded running maximum, written pointwise: entry `t` is the fold
of `max` over the first `t + 1` elements starting from the seed. -/
theorem rollingMaxAux_eq (m : ℚ) (xs : List ℚ) :
    rollingMaxAux m xs =
      (List.range xs.length).map (fun t => (xs.take (t + 1)).foldl max m) := by
  induction xs generalizing m with
  | nil => simp [rollingMaxAux]
  | cons x xs ih =>
      simp only [rollingMaxAux, List.length_cons, List.range_succ_eq_map,
        List.map_cons, List.map_map, ih]
      rfl

/-- `expanding().max()` agrees with the spec's prefix maximum at every
index. -/
theorem rollingMax_eq (vs : List ℚ) :
    rollingMax vs = (List.range vs.length).map (specRunningMax vs) := by
  cases vs with
  | nil => simp [rollingMax]
  | cons x xs =>
      simp only [rollingMax, rollingMaxAux_eq, List.length_cons,
        List.range_succ_eq_map, List.map_cons, List.map_map]
      rfl

/-- The drawdown series is index-aligned with the input. -/
theorem drawdowns_length (vs : List ℚ) : (drawdowns vs).length = vs.length := by
  simp [drawdowns, rollingMax_eq]

/-- The drawdown series written pointwise, with the spec's prefix
maximum. -/
theorem drawdowns_eq (vs : List ℚ) :
    drawdowns vs =
      (List.range vs.length).map
        (fun t => (vs.getD t 0 - specRunningMax vs t) / specRunningMax vs t) := by
  apply List.ext_getElem
  · simp [drawdowns_length]
  · intro i h1 h2
    have hi : i < vs.length := by
      have := drawdowns_length vs
      omega
    simp [drawdowns, List.getElem_zipWith, rollingMax_eq, hi,
      List.getD_eq_getElem?_getD, List.getElem?_eq_getElem]

/-- C7: the max-drawdown computation returns exactly the minimum over all
indices `t` of `(value[t] - runningMax[t]) / runningMax[t]` with
`runningMax` the prefix maximum; on `[100, 120, 90, 110]` it is exactly
`-1/4`; and on any one-point series it is `0`. -/
theorem C7_max_drawdown (vs : List ℚ) (h : vs ≠ []) :
    listMin ((List.range vs.length).map
        (fun t => (vs.getD t 0 - specRunningMax vs t) / specRunningMax vs t)) =
      some (maxDrawdown vs) ∧
    maxDrawdown [100, 120, 90, 110] = -(1 / 4) ∧
    ∀ x : ℚ, maxDrawdown [x] = 0 := by
  refine ⟨?_, ?_, ?_⟩
  · rw [← drawdowns_eq]
    cases hdd : drawdowns vs with
    | nil =>
        exfalso
        apply h
        have hlen := drawdowns_length vs
        rw [hdd] at hlen
        exact List.length_eq_zero.mp hlen.symm
    | cons y ys => simp [maxDrawdown, hdd, listMin]
  · simp [maxDrawdown, drawdowns, rollingMax, rollingMaxAux, listMin]
    norm_num
  · intro x
    simp [maxDrawdown, drawdowns, rollingMax, listMin]

/-- Witness for C7 at the concrete series `[100, 120, 90, 110]`. -/
theorem C7_max_drawdown_witness :
    maxDrawdown [100, 120, 90, 110] = -(1 / 4) := by
  exact (C7_max_drawdown [100, 120, 90, 110] (by simp)).2.1

/-! ### Sharpe ratio (C8) -/

/-- The sample variance is never negative: on an empty series both
numerator and ℚ-quotient are 0, and otherwise it is a sum of squares
divided by `n - 1 ≥ 0`. -/
theorem sampleVar_nonneg (xs : List ℚ) : 0 ≤ sampleVar xs := by
  cases xs with
  | nil => simp [sampleVar]
  | cons x l =>
      apply div_nonneg
      · apply List.sum_nonneg
        intro q hq
        obtain ⟨y, _, rfl⟩ := List.mem_map.mp hq
        positivity
      · have : (1 : ℚ) ≤ ((x :: l).length : ℚ) := by
          exact_mod_cast Nat.succ_le_of_lt (List.length_pos.mpr (by simp))
        linarith

/-- The standard deviation vanishes exactly when the sample variance
does. -/
theorem sampleStd_eq_zero_iff (xs : List ℚ) :
    sampleStd xs = 0 ↔ sampleVar xs = 0 := by
  rw [sampleStd, Real.sqrt_eq_zero']
  constructor
  · intro h
    have h' : sampleVar xs ≤ 0 := by exact_mod_cast h
    exact le_antisymm h' (sampleVar_nonneg xs)
  · intro h
    rw [h]
    simp

/-- C8: the Sharpe computation returns exactly 0 when the returns series
is empty or its standard deviation is zero (no division happens there),
and otherwise returns
`mean(returns - 0.02/252) / stdev(returns) * sqrt(252)` with the fixed
constants 0.02 and 252. -/
theorem C8_sharpe (rs : List ℚ) :
    ((rs = [] ∨ sampleStd rs = 0) → calcSharpe rs = 0) ∧
    (¬(rs = [] ∨ sampleStd rs = 0) →
      calcSharpe rs =
        ((listMean (rs.map (fun r => r - (2 / 100) / 252)) : ℚ) : ℝ) /
          sampleStd rs * Real.sqrt 252) := by
  constructor
  · intro hcase
    rw [calcSharpe, if_pos]
    rcases hcase with h | h
    · exact Or.inl h
    · exact Or.inr ((sampleStd_eq_zero_iff rs).mp h)
  · intro hcase
    rw [calcSharpe, if_neg]
    intro hc
    apply hcase
    rcases hc with h | h
    · exact Or.inl h
    · exact Or.inr ((sampleStd_eq_zero_iff rs).mpr h)

/-- Witness for C8 at concrete inputs: the zero-variance series
`[1, 1]` yields exactly 0, and the series `[0, 1/100]` (variance
`1/20000 ≠ 0`) takes the formula branch. -/
theorem C8_sharpe_witness :
    calcSharpe [1, 1] = 0 ∧
    calcSharpe [0, 1 / 100] =
      ((listMean ([0, 1 / 100].map (fun r => r - (2 / 100) / 252)) : ℚ) : ℝ) /
        sampleStd [0, 1 / 100] * Real.sqrt 252 := by
  constructor
  · apply (C8_sharpe [1, 1]).1
    right
    have hv : sampleVar [1, 1] = 0 := by
      norm_num [sampleVar, listMean]
    rw [sampleStd, hv]
    simp
  · apply (C8_sharpe [0, 1 / 100]).2
    intro hc
    rcases hc with h | h
    · simp at h
    · have hv : sampleVar [0, 1 / 100] = 1 / 20000 := by
        norm_num [sampleVar, listMean]
      rw [sampleStd_eq_zero_iff, hv] at h
      norm_num at h

/-! ### Parallel output series of the simulation loop (C4) -/

/-- The signal emitted at each remaining bar, given the bars already
consumed: one signal per bar, generated on the visible prefix. -/
def signalTrace (strat : Strategy) : List Bar → List Bar → List Signal
  | _, [] => []
  | seen, bar :: rest =>
      strat.gen (seen ++ [bar]) :: signalTrace strat (seen ++ [bar]) rest

/-- Each loop iteration appends exactly the signal generated on the
visible prefix. -/
theorem simBar_signals (strat : Strategy) (rate : ℚ) (sym : String)
    (visible : List Bar) (bar : Bar) (s : SimState) :
    (simBar strat rate sym visible bar s).signals =
      s.signals ++ [strat.gen visible] := by
  by_cases h : strat.gen visible = Signal.hold
  · simp [simBar, h]
  · cases hr : (execute_trade strat.size s.ledger (strat.gen visible)
        bar.close bar.timestamp sym).2 <;>
      simp [simBar, h, hr]

/-- Each loop iteration appends exactly one portfolio value. -/
theorem simBar_values_length (strat : Strategy) (rate : ℚ) (sym : String)
    (visible : List Bar) (bar : Bar) (s : SimState) :
    (simBar strat rate sym visible bar s).portfolio_values.length =
      s.portfolio_values.length + 1 := by
  by_cases h : strat.gen visible = Signal.hold
  · simp [simBar, h]
  · cases hr : (execute_trade strat.size s.ledger (strat.gen visible)
        bar.close bar.timestamp sym).2 <;>
      simp [simBar, h, hr]

/-- The loop's accumulated signal list is the incoming one extended by
the per-bar signal trace. -/
theorem runLoop_signals (strat : Strategy) (rate : ℚ) (sym : String)
    (rest : List Bar) : ∀ (seen : List Bar) (s : SimState),
    (runLoop strat rate sym seen rest s).signals =
      s.signals ++ signalTrace strat seen rest := by
  induction rest with
  | nil => intro seen s; simp [runLoop, signalTrace]
  | cons bar rest ih =>
      intro seen s
      rw [runLoop, signalTrace, ih, simBar_signals]
      simp

/-- The loop appends exactly one portfolio value per bar. -/
theorem runLoop_values_length (strat : Strategy) (rate : ℚ) (sym : String)
    (rest : List Bar) : ∀ (seen : List Bar) (s : SimState),
    (runLoop strat rate sym seen rest s).portfolio_values.length =
      s.portfolio_values.length + rest.length := by
  induction rest with
  | nil => intro seen s; simp [runLoop]
  | cons bar rest ih =>
      intro seen s
      rw [runLoop, ih, simBar_values_length]
      simp
      omega

/-- The signal trace has one entry per bar. -/
theorem signalTrace_length (strat : Strategy) (rest : List Bar) :
    ∀ seen, (signalTrace strat seen rest).length = rest.length := by
  induction rest with
  | nil => intro seen; simp [signalTrace]
  | cons bar rest ih => intro seen; simp [signalTrace, ih]

/-- Entry `i` of the signal trace is the signal generated on the prefix
through bar `i`. -/
theorem signalTrace_get (strat : Strategy) (rest : List Bar) :
    ∀ (seen : List Bar) (i : Nat), i < rest.length →
    (signalTrace strat seen rest).get? i =
      some (strat.gen (seen ++ rest.take (i + 1))) := by
  induction rest with
  | nil => intro seen i h; simp at h
  | cons bar rest ih =>
      intro seen i h
      cases i with
      | zero => simp [signalTrace]
      | succ i =>
          rw [signalTrace]
          simp only [List.get?_cons_succ]
          rw [ih (seen ++ [bar]) i (by simpa using Nat.lt_of_succ_lt_succ h)]
          simp [List.take_succ_cons, List.append_assoc]

/-- C4: for every non-empty input series, one backtest run produces a
signal series and a portfolio-value series each of exactly the input
length, and the signal at index `i` is the one generated on the input
prefix through bar `i` (exactly one signal and one value appended per
bar). -/
theorem C4_parallel_series (strat : Strategy) (rate : ℚ) (symbol : String)
    (init : ℚ) (bars : List Bar) (h : bars ≠ []) :
    (run_backtest strat rate symbol init bars).signals.length = bars.length ∧
    (run_backtest strat rate symbol init bars).portfolio_values.length =
      bars.length ∧
    ∀ i, i < bars.length →
      (run_backtest strat rate symbol init bars).signals.get? i =
        some (strat.gen (bars.take (i + 1))) := by
  refine ⟨?_, ?_, ?_⟩
  · rw [run_backtest, runLoop_signals]
    simp [signalTrace_length]
  · rw [run_backtest, runLoop_values_length]
    simp
  · intro i hi
    rw [run_backtest, runLoop_signals]
    simpa using signalTrace_get strat bars [] i hi

/-- Witness for C4 at a concrete input: a two-bar run of the always-buy
strategy produces series of length 2. -/
theorem C4_parallel_series_witness :
    (run_backtest c1Strategy (1 / 1000) "BTC/USDT" 10000
        [⟨0, 100⟩, ⟨1, 100⟩]).signals.length = 2 := by
  exact (C4_parallel_series c1Strategy (1 / 1000) "BTC/USDT" 10000
    [⟨0, 100⟩, ⟨1, 100⟩] (by simp)).1

/-! ### Ledger invariant (C5) -/

/-- The ledger invariant of the spec's data model: every open position
has strictly positive quantity, and the positions mapping holds at most
one entry per symbol (its key list has no duplicates). -/
def LedgerInv (st : LedgerState) : Prop :=
  (∀ q ∈ st.positions, 0 < q.2.quantity) ∧ (st.positions.map Prod.fst).Nodup

/-- A successful dict lookup exhibits a member with the looked-up key. -/
theorem lookupPos_mem {ps : List (String × Position)} {s : String}
    {p : Position} (h : lookupPos ps s = some p) : (s, p) ∈ ps := by
  unfold lookupPos at h
  cases hf : ps.find? (fun q => q.1 == s) with
  | none => rw [hf] at h; simp at h
  | some q =>
      rw [hf] at h
      simp only [Option.map_some', Option.some.injEq] at h
      have hmem := List.mem_of_find?_eq_some hf
      have hkey : q.1 = s := by simpa using List.find?_some hf
      cases q with
      | mk a b =>
          simp only at hkey h
          rw [← hkey, ← h]
          exact hmem

/-- Every member of the updated dict is the new binding or an old one. -/
theorem mem_setPos {ps : List (String × Position)} {s : String}
    {p : Position} {q : String × Position} (h : q ∈ setPos ps s p) :
    q = (s, p) ∨ q ∈ ps := by
  unfold setPos at h
  by_cases hf : (ps.find? (fun r => r.1 == s)).isSome
  · rw [if_pos hf] at h
    obtain ⟨q', hq', hfq⟩ := List.mem_map.mp h
    by_cases hqs : q'.1 == s
    · rw [if_pos hqs] at hfq
      exact Or.inl hfq.symm
    · rw [if_neg hqs] at hfq
      exact Or.inr (hfq ▸ hq')
  · rw [if_neg hf] at h
    rcases List.mem_append.mp h with hl | hr
    · exact Or.inr hl
    · exact Or.inl (by simpa using hr)

/-- Updating an existing key leaves the key list unchanged. -/
theorem keys_setPos_isSome {ps : List (String × Position)} {s : String}
    {p : Position} (h : (ps.find? (fun r => r.1 == s)).isSome) :
    (setPos ps s p).map Prod.fst = ps.map Prod.fst := by
  unfold setPos
  rw [if_pos h, List.map_map]
  apply List.map_congr_left
  intro q _
  by_cases hqs : q.1 = s
  · simp [hqs]
  · simp [hqs]

/-- Inserting a fresh key appends it to the key list. -/
theorem keys_setPos_none {ps : List (String × Position)} {s : String}
    {p : Position} (h : ps.find? (fun r => r.1 == s) = none) :
    (setPos ps s p).map Prod.fst = ps.map Prod.fst ++ [s] := by
  unfold setPos
  rw [if_neg (by simp [h])]
  simp

/-- A key on which the dict lookup fails is absent from the key list. -/
theorem not_mem_keys_of_find_none {ps : List (String × Position)} {s : String}
    (h : ps.find? (fun r => r.1 == s) = none) : s ∉ ps.map Prod.fst := by
  intro hmem
  obtain ⟨q, hq, hfst⟩ := List.mem_map.mp hmem
  have := List.find?_eq_none.mp h q hq
  simp [hfst] at this

/-- `setPos` preserves the ledger invariant on the positions list when
the inserted position has positive quantity. -/
theorem inv_setPos (ps : List (String × Position)) (s : String) (p : Position)
    (hall : ∀ q ∈ ps, 0 < q.2.quantity) (hnd : (ps.map Prod.fst).Nodup)
    (hp : 0 < p.quantity) :
    (∀ q ∈ setPos ps s p, 0 < q.2.quantity) ∧
    ((setPos ps s p).map Prod.fst).Nodup := by
  constructor
  · intro q hq
    rcases mem_setPos hq with rfl | hq
    · exact hp
    · exact hall q hq
  · cases hf : ps.find? (fun r => r.1 == s) with
    | some q => rw [keys_setPos_isSome (by simp [hf])]; exact hnd
    | none =>
        rw [keys_setPos_none hf]
        refine List.Nodup.append hnd (List.nodup_singleton s) ?_
        intro a ha hb
        have hs : a = s := by simpa using hb
        exact not_mem_keys_of_find_none hf (hs ▸ ha)

/-- `delPos` preserves the ledger invariant on the positions list. -/
theorem inv_delPos (ps : List (String × Position)) (s : String)
    (hall : ∀ q ∈ ps, 0 < q.2.quantity) (hnd : (ps.map Prod.fst).Nodup) :
    (∀ q ∈ delPos ps s, 0 < q.2.quantity) ∧
    ((delPos ps s).map Prod.fst).Nodup := by
  constructor
  · intro q hq
    exact hall q (List.mem_of_mem_filter hq)
  · exact List.Nodup.sublist ((List.filter_sublist ps).map Prod.fst) hnd

/-- Case analysis of `execute_trade` on a ledger satisfying the
invariant: the positions mapping is left alone, updated at the call's
symbol with a strictly positive quantity, or has that symbol deleted. -/
theorem execute_trade_positions_cases (size : Sizing) (st : LedgerState)
    (sig : Signal) (price : ℚ) (ts : Nat) (sym : String) (h : LedgerInv st) :
    (execute_trade size st sig price ts sym).1.positions = st.positions ∨
    (∃ p, 0 < p.quantity ∧
      (execute_trade size st sig price ts sym).1.positions =
        setPos st.positions sym p) ∨
    (execute_trade size st sig price ts sym).1.positions =
      delPos st.positions sym := by
  by_cases hh : sig = Signal.hold
  · left; simp [execute_trade, hh]
  by_cases hq : size st sig price st.current_balance ≤ 0
  · left; simp [execute_trade, hh, hq]
  have hq' : 0 < size st sig price st.current_balance := lt_of_not_le hq
  cases sig with
  | hold => exact absurd rfl hh
  | buy =>
      by_cases hc : price * size st Signal.buy price st.current_balance ≤
          st.current_balance
      · cases hl : lookupPos st.positions sym with
        | some existing =>
            have heq : (execute_trade size st Signal.buy price ts sym).1.positions =
                setPos st.positions sym
                  { symbol := sym
                    quantity := existing.quantity +
                      size st Signal.buy price st.current_balance
                    entry_price := (existing.entry_price * existing.quantity +
                        price * size st Signal.buy price st.current_balance) /
                      (existing.quantity +
                        size st Signal.buy price st.current_balance)
                    entry_time := existing.entry_time
                    current_price := price } := by
              simp [execute_trade, hq, hc, hl]
            refine Or.inr (Or.inl ⟨_, ?_, heq⟩)
            show 0 < existing.quantity + size st Signal.buy price st.current_balance
            have hex : 0 < existing.quantity :=
              h.1 (sym, existing) (lookupPos_mem hl)
            linarith
        | none =>
            have heq : (execute_trade size st Signal.buy price ts sym).1.positions =
                setPos st.positions sym
                  { symbol := sym
                    quantity := size st Signal.buy price st.current_balance
                    entry_price := price
                    entry_time := ts
                    current_price := price } := by
              simp [execute_trade, hq, hc, hl]
            exact Or.inr (Or.inl ⟨_, hq', heq⟩)
      · left; simp [execute_trade, hq, hc]
  | sell =>
      cases hl : lookupPos st.positions sym with
      | some position =>
          by_cases hrem : position.quantity -
              min (size st Signal.sell price st.current_balance)
                position.quantity ≤ 0
          · right; right
            simp [execute_trade, hq, hl, hrem]
          · have heq : (execute_trade size st Signal.sell price ts sym).1.positions =
                setPos st.positions sym
                  { position with
                      quantity := (position.quantity -
                        min (size st Signal.sell price st.current_balance)
                          position.quantity) } := by
              simp [execute_trade, hq, hl, hrem]
            exact Or.inr (Or.inl ⟨_, lt_of_not_le hrem, heq⟩)
      | none => left; simp [execute_trade, hq, hl]

/-- One `execute_trade` call preserves the ledger invariant. -/
theorem execute_trade_inv (size : Sizing) (st : LedgerState) (sig : Signal)
    (price : ℚ) (ts : Nat) (sym : String) (h : LedgerInv st) :
    LedgerInv (execute_trade size st sig price ts sym).1 := by
  rcases execute_trade_positions_cases size st sig price ts sym h with
    hcase | ⟨p, hp, hcase⟩ | hcase
  · exact ⟨hcase ▸ h.1, hcase ▸ h.2⟩
  · have hinv := inv_setPos st.positions sym p h.1 h.2 hp
    exact ⟨hcase ▸ hinv.1, hcase ▸ hinv.2⟩
  · have hinv := inv_delPos st.positions sym h.1 h.2
    exact ⟨hcase ▸ hinv.1, hcase ▸ hinv.2⟩

/-- One requested trade of a call sequence. -/
structure TradeCall where
  signal : Signal
  price : ℚ
  timestamp : Nat
  symbol : String

/-- Running a whole sequence of `execute_trade` calls over a ledger. -/
def applyCalls (size : Sizing) : LedgerState → List TradeCall → LedgerState
  | st, [] => st
  | st, c :: cs =>
      applyCalls size
        (execute_trade size st c.signal c.price c.timestamp c.symbol).1 cs

/-- C5: every sequence of `execute_trade` calls preserves the ledger
invariant that the positions mapping holds at most one Position per
symbol and every Position present has strictly positive quantity (a
position whose quantity reaches ≤ 0 during a Sell is deleted within the
same call, and a Buy never creates or leaves a non-positive one). -/
theorem C5_position_invariant (size : Sizing) (st : LedgerState)
    (calls : List TradeCall) (h : LedgerInv st) :
    LedgerInv (applyCalls size st calls) := by
  induction calls generalizing st with
  | nil => exact h
  | cons c cs ih =>
      exact ih _ (execute_trade_inv size st c.signal c.price c.timestamp
        c.symbol h)

/-- Witness for C5 at a concrete input: a buy-then-oversell call
sequence, sized constantly at 4, starting from the fresh ledger. -/
theorem C5_position_invariant_witness :
    LedgerInv (applyCalls (fun _ _ _ _ => 4) freshLedger
      [⟨Signal.buy, 100, 0, "BTC/USDT"⟩, ⟨Signal.sell, 50, 1, "BTC/USDT"⟩]) := by
  apply C5_position_invariant
  constructor
  · intro q hq
    simp [freshLedger] at hq
  · simp [freshLedger]

/-! ### Commission accounting (C9) -/

/-- Sum of `price * quantity` over a trade history. -/
def notionalSum (ts : List Trade) : ℚ :=
  (ts.map (fun t => t.price * t.quantity)).sum

/-- `execute_trade` appends to the history exactly the trade it returns:
nothing on a `none` result, the returned trade otherwise. -/
theorem execute_trade_trades (size : Sizing) (st : LedgerState) (sig : Signal)
    (price : ℚ) (ts : Nat) (sym : String) :
    (execute_trade size st sig price ts sym).1.trades =
      st.trades ++ (execute_trade size st sig price ts sym).2.toList := by
  by_cases hh : sig = Signal.hold
  · simp [execute_trade, hh]
  by_cases hq : size st sig price st.current_balance ≤ 0
  · simp [execute_trade, hh, hq]
  cases sig with
  | hold => exact absurd rfl hh
  | buy =>
      by_cases hc : price * size st Signal.buy price st.current_balance ≤
          st.current_balance
      · cases hl : lookupPos st.positions sym with
        | some e => simp [execute_trade, hq, hc, hl]
        | none => simp [execute_trade, hq, hc, hl]
      · simp [execute_trade, hq, hc]
  | sell =>
      cases hl : lookupPos st.positions sym with
      | some p => simp [execute_trade, hq, hl]
      | none => simp [execute_trade, hq, hl]

/-- Valuation does not touch the trade history. -/
theorem get_portfolio_value_trades (st : LedgerState)
    (prices : List (String × ℚ)) :
    (get_portfolio_value st prices).2.trades = st.trades := by
  simp [get_portfolio_value]

/-- One loop iteration keeps the ghost commission accumulator equal to
the commission rate times the total notional of the recorded trades. -/
theorem simBar_commission (strat : Strategy) (rate : ℚ) (sym : String)
    (visible : List Bar) (bar : Bar) (s : SimState)
    (h : s.commission_debited = rate * notionalSum s.ledger.trades) :
    (simBar strat rate sym visible bar s).commission_debited =
      rate * notionalSum (simBar strat rate sym visible bar s).ledger.trades := by
  by_cases hh : strat.gen visible = Signal.hold
  · simpa [simBar, hh, get_portfolio_value_trades] using h
  · cases hr : (execute_trade strat.size s.ledger (strat.gen visible)
        bar.close bar.timestamp sym).2 with
    | none =>
        have htr := execute_trade_trades strat.size s.ledger (strat.gen visible)
          bar.close bar.timestamp sym
        rw [hr] at htr
        simp only [Option.toList_none, List.append_nil] at htr
        simpa [simBar, hh, hr, get_portfolio_value_trades, htr] using h
    | some t =>
        have htr := execute_trade_trades strat.size s.ledger (strat.gen visible)
          bar.close bar.timestamp sym
        rw [hr] at htr
        simp only [Option.toList_some] at htr
        simp only [simBar, hh, hr, if_neg hh, get_portfolio_value_trades]
        simp [htr, notionalSum, h]
        ring

/-- The whole loop keeps the ghost commission accumulator equal to the
rate times the total notional of the recorded trades. -/
theorem runLoop_commission (strat : Strategy) (rate : ℚ) (sym : String)
    (rest : List Bar) : ∀ (seen : List Bar) (s : SimState),
    s.commission_debited = rate * notionalSum s.ledger.trades →
    (runLoop strat rate sym seen rest s).commission_debited =
      rate * notionalSum (runLoop strat rate sym seen rest s).ledger.trades := by
  induction rest with
  | nil => intro seen s h; simpa [runLoop] using h
  | cons bar rest ih =>
      intro seen s h
      rw [runLoop]
      exact ih (seen ++ [bar]) _ (simBar_commission strat rate sym
        (seen ++ [bar]) bar s h)

/-- The always-buy strategy sized at a constant quantity 1/2, used to
exhibit a run whose trade notionals are not all 1. -/
def c9Strategy : Strategy :=
  { gen := fun _ => Signal.buy
    size := fun _ _ _ _ => 1 / 2 }

/-- C9 counterexample: the two-bar run of `c9Strategy` at prices 1 and 3
records trades with notionals 1/2 and 3/2 — so it contains a trade whose
price * quantity differs from 1 — yet `total_commission_paid`
(= 2 * 0.001) coincides exactly with the commission actually debited
(0.001 * (1/2 + 3/2)), refuting the claimed inequality. -/
theorem C9_counterexample :
    ((run_backtest c9Strategy (1 / 1000) "BTC/USDT" 10000
        [⟨0, 1⟩, ⟨1, 3⟩]).ledger.trades.map (fun t => t.price * t.quantity)) =
      [1 / 2, 3 / 2] ∧
    totalCommissionPaid (run_backtest c9Strategy (1 / 1000) "BTC/USDT" 10000
        [⟨0, 1⟩, ⟨1, 3⟩]) (1 / 1000) =
      (run_backtest c9Strategy (1 / 1000) "BTC/USDT" 10000
        [⟨0, 1⟩, ⟨1, 3⟩]).commission_debited := by
  constructor <;>
    repeat (first
      | simp [run_backtest, runLoop, simBar, c9Strategy, execute_trade,
          get_portfolio_value, portfolioStep, lookupPos, lookupPrice, setPos,
          delPos, List.find?, Signal.value, totalCommissionPaid]
      | norm_num [run_backtest, runLoop, simBar, c9Strategy, execute_trade,
          get_portfolio_value, portfolioStep, lookupPos, lookupPrice, setPos,
          delPos, List.find?, Signal.value, totalCommissionPaid])

/-- C9 (amended): in every run, `total_commission_paid` equals the number
of recorded trades times the commission rate, the commission actually
debited from cash equals the rate times the summed notionals of the
recorded trades, and whenever the rate is nonzero and that notional sum
differs from the trade count, `total_commission_paid` differs from the
commission actually debited. -/
theorem C9_commission_amended (strat : Strategy) (rate : ℚ) (symbol : String)
    (init : ℚ) (bars : List Bar) :
    totalCommissionPaid (run_backtest strat rate symbol init bars) rate =
      ((run_backtest strat rate symbol init bars).ledger.trades.length : ℚ) *
        rate ∧
    (run_backtest strat rate symbol init bars).commission_debited =
      rate * notionalSum (run_backtest strat rate symbol init bars).ledger.trades ∧
    (rate ≠ 0 →
      notionalSum (run_backtest strat rate symbol init bars).ledger.trades ≠
        ((run_backtest strat rate symbol init bars).ledger.trades.length : ℚ) →
      totalCommissionPaid (run_backtest strat rate symbol init bars) rate ≠
        (run_backtest strat rate symbol init bars).commission_debited) := by
  have hdeb : (run_backtest strat rate symbol init bars).commission_debited =
      rate * notionalSum (run_backtest strat rate symbol init bars).ledger.trades := by
    rw [run_backtest]
    apply runLoop_commission
    simp [notionalSum]
  refine ⟨rfl, hdeb, ?_⟩
  intro hrate hne heq
  rw [hdeb, totalCommissionPaid] at heq
  apply hne
  have := mul_left_cancel₀ hrate (by linarith [heq] : rate * notionalSum
    (run_backtest strat rate symbol init bars).ledger.trades =
      rate * ((run_backtest strat rate symbol init bars).ledger.trades.length : ℚ))
  exact this

/-- Witness for C9 at a concrete input: in the single-buy run of the C1
strategy (one trade of notional 1000, rate 0.001), the reported
`total_commission_paid` (0.001) differs from the commission actually
debited (1). -/
theorem C9_commission_amended_witness :
    totalCommissionPaid (run_backtest c1Strategy (1 / 1000) "BTC/USDT" 10000
        [⟨0, 100⟩]) (1 / 1000) ≠
      (run_backtest c1Strategy (1 / 1000) "BTC/USDT" 10000
        [⟨0, 100⟩]).commission_debited := by
  apply (C9_commission_amended c1Strategy (1 / 1000) "BTC/USDT" 10000
    [⟨0, 100⟩]).2.2
  · norm_num
  · repeat (first
      | simp [run_backtest, runLoop, simBar, c1Strategy, execute_trade,
          smaPositionSize, get_portfolio_value, portfolioStep, lookupPos,
          lookupPrice, setPos, delPos, List.find?, Signal.value, notionalSum,
          freshLedger]
      | norm_num [run_backtest, runLoop, simBar, c1Strategy, execute_trade,
          smaPositionSize, get_portfolio_value, portfolioStep, lookupPos,
          lookupPrice, setPos, delPos, List.find?, Signal.value, notionalSum,
          freshLedger])

end BtcTrader
